import Mathlib

/-!
Shallow embedding of the algorithmic core of `codec-man` (`src/main.rs`):
the delta codec (the Encode and Decode button handlers), and the resampler
(the Process button handler).

Modelling conventions:
* `f32`/`f64` sample values are modelled as exact rationals (`ℚ`); the
  floating-point rounding of individual operations is abstracted away, and
  every concrete input used below is chosen so that the corresponding
  floating-point computation is exact (or so that the verdict is robust far
  beyond rounding tolerance).
* Rust integer casts are modelled exactly: `as i16` from a float is
  truncation toward zero with saturation, `as u8` / `to_le_bytes` are
  two's-complement bit extractions, `as usize` from a float saturates at 0.
* Bytes are `Nat` (always `< 256` by construction).
-/

namespace CodecMan

/-- Truncation toward zero of a rational: the rounding used by Rust
float-to-integer `as` casts and by `f32::fract` (`x - x.trunc()`). -/
def truncQ (x : ℚ) : Int := if 0 ≤ x then ⌊x⌋ else ⌈x⌉

/-- Rust `as i16` cast from a float value: truncate toward zero, then
saturate into `[-32768, 32767]`. -/
def asI16 (x : ℚ) : Int := max (-32768) (min 32767 (truncQ x))

/-- Rust `as u8` cast of an `i16`: the low 8 bits, two's complement. -/
def toU8 (d : Int) : Nat := (d.emod 256).toNat

/-- Two's-complement 16-bit representation of an `i16` value, as used by
`i16::to_le_bytes`. -/
def toU16 (d : Int) : Nat := (d.emod 65536).toNat

/-- Rust `as i8` reinterpretation of a byte (`byte as i8` in the decoder). -/
def toI8 (b : Nat) : Int := if b < 128 then (b : Int) else (b : Int) - 256

/-- `i16::from_le_bytes [b, b2]` in the decoder. -/
def toI16 (b b2 : Nat) : Int :=
  if b + 256 * b2 < 32768 then ((b + 256 * b2 : Nat) : Int)
  else ((b + 256 * b2 : Nat) : Int) - 65536

/-- The delta computed by the Encode branch for sample `s` with predictor
`last`: `(s as f64 * 32767 - last as f64 * 32767) as i16`
(`src/main.rs:164-165`). -/
def delta (s last : ℚ) : Int := asI16 (s * 32767 - last * 32767)

/-- The byte unit emitted by the Encode branch for one delta
(`src/main.rs:167-181`): a 1-byte short unit with the least-significant bit
cleared when `-128 < delta < 127`, otherwise the 2-byte little-endian
representation with the least-significant bit of the first byte forced
to 1. -/
def encodeUnit (d : Int) : List Nat :=
  if d < 127 ∧ -128 < d then
    let b := toU8 d
    [if b % 2 = 1 then b - 1 else b]
  else
    let u := toU16 d
    let lo := u % 256
    let hi := u / 256
    [if lo % 2 = 0 then lo + 1 else lo, hi]

/-- The Encode loop (`src/main.rs:160-185`): first-difference prediction,
predictor `last` is the previous raw sample. -/
def encodeAux : ℚ → List ℚ → List Nat
  | _, [] => []
  | last, s :: rest => encodeUnit (delta s last) ++ encodeAux s rest

/-- The Encode button handler, starting from predictor `0.0`. -/
def encode (samples : List ℚ) : List Nat := encodeAux 0 samples

/-- The Decode loop (`src/main.rs:187-216`): a byte with least-significant
bit 0 starts a 2-byte little-endian long unit (dropped silently when the
second byte is missing); a byte with least-significant bit 1 is a 1-byte
signed delta. Each emitted sample is `delta / 32767 + last` and becomes the
new predictor. -/
def decodeAux : ℚ → List Nat → List ℚ
  | _, [] => []
  | last, b :: rest =>
    if b % 2 = 0 then
      match rest with
      | [] => []
      | b2 :: rest2 =>
        let s : ℚ := (toI16 b b2 : ℚ) / 32767 + last
        s :: decodeAux s rest2
    else
      let s : ℚ := (toI8 b : ℚ) / 32767 + last
      s :: decodeAux s rest

/-- The Decode button handler, starting from predictor `0.0`. -/
def decode (stream : List Nat) : List ℚ := decodeAux 0 stream

/-- Rust `f32::round`: round to nearest, ties away from zero. -/
def roundAway (x : ℚ) : Int := if 0 ≤ x then ⌊x + 1/2⌋ else -⌊-x + 1/2⌋

/-- The Process button handler (`src/main.rs:222-243`): the resampler.
Output length is `(buffer.len() as f32 / speed).round() as usize`; for each
output index the source position is `(i as f32 * speed).round()`, then
`left = pos.floor() as usize`, `right = left + 1`, `frac = pos.fract()`;
linear interpolation when `right` is in range, clamp to `buffer[left]` when
only `left` is in range, push nothing otherwise. (Rational division by zero
yields 0 here, so this model is used only for `speed ≠ 0`; at `speed = 0`
with a non-empty buffer the Rust code panics in `Vec::with_capacity`.) -/
def process (buffer : List ℚ) (speed : ℚ) : List ℚ :=
  (List.range ((roundAway ((buffer.length : ℚ) / speed)).toNat)).filterMap
    (fun (i : Nat) =>
      let originalIndex : ℚ := ((roundAway ((i : ℚ) * speed) : ℤ) : ℚ)
      let leftIndex : Nat := (⌊originalIndex⌋).toNat
      let rightIndex : Nat := leftIndex + 1
      let fractional : ℚ := originalIndex - ((truncQ originalIndex : ℤ) : ℚ)
      if rightIndex < buffer.length then
        some ((1 - fractional) * buffer.getD leftIndex 0 +
          fractional * buffer.getD rightIndex 0)
      else if leftIndex < buffer.length then
        some (buffer.getD leftIndex 0)
      else
        none)

/-- Nearest-neighbor resampling with edge clamp, stated from the words of
claim C10: `output[i] = input[round(i * speed)]` whenever that index is in
range, nothing pushed otherwise. Comparison target for the refinement
claim; not a translation of the source. -/
def processNearest (buffer : List ℚ) (speed : ℚ) : List ℚ :=
  (List.range ((roundAway ((buffer.length : ℚ) / speed)).toNat)).filterMap
    (fun (i : Nat) =>
      let pos : Nat := (roundAway ((i : ℚ) * speed)).toNat
      if pos < buffer.length then some (buffer.getD pos 0) else none)

/-- The output-length characterization from claim C6: `round(n / speed)`
output slots, of which exactly those whose source position is in range
produce an element. Stated from the claim's words as the comparison value
for the length law. -/
def outLenSpec (buffer : List ℚ) (speed : ℚ) : Nat :=
  (List.range ((roundAway ((buffer.length : ℚ) / speed)).toNat)).countP
    (fun (i : Nat) => decide (roundAway ((i : ℚ) * speed) < (buffer.length : Int)))

/-- Streams made of complete units as read by the Decode loop: an odd byte
is a complete short unit, an even byte together with its payload byte is a
complete long unit. -/
inductive CompleteUnits : List Nat → Prop
  | nil : CompleteUnits []
  | short (b : Nat) (rest : List Nat) (hb : b % 2 = 1) (h : CompleteUnits rest) :
      CompleteUnits (b :: rest)
  | long (b b2 : Nat) (rest : List Nat) (hb : b % 2 = 0) (h : CompleteUnits rest) :
      CompleteUnits (b :: b2 :: rest)

/-! ### Evaluation and structure lemmas -/

theorem truncQ_intCast (z : ℤ) : truncQ ((z : ℤ) : ℚ) = z := by
  unfold truncQ
  split <;> simp

theorem decodeAux_nil (last : ℚ) : decodeAux last [] = [] := rfl

theorem decodeAux_single_even (last : ℚ) (b : Nat) (hb : b % 2 = 0) :
    decodeAux last [b] = [] := by
  simp only [decodeAux, if_pos hb]

theorem decodeAux_cons_even (last : ℚ) (b b2 : Nat) (rest : List Nat)
    (hb : b % 2 = 0) :
    decodeAux last (b :: b2 :: rest) =
      ((toI16 b b2 : ℚ) / 32767 + last) ::
        decodeAux ((toI16 b b2 : ℚ) / 32767 + last) rest := by
  simp only [decodeAux, if_pos hb]

theorem decodeAux_cons_odd (last : ℚ) (b : Nat) (rest : List Nat)
    (hb : b % 2 = 1) :
    decodeAux last (b :: rest) =
      ((toI8 b : ℚ) / 32767 + last) ::
        decodeAux ((toI8 b : ℚ) / 32767 + last) rest := by
  have hb0 : ¬ b % 2 = 0 := by omega
  cases rest with
  | nil => simp only [decodeAux, if_neg hb0]
  | cons c cs => simp only [decodeAux, if_neg hb0]

theorem floorQ_eval {x : ℚ} {z : ℤ} (h1 : (z : ℚ) ≤ x) (h2 : x < (z : ℚ) + 1) :
    ⌊x⌋ = z :=
  Int.floor_eq_iff.mpr ⟨h1, h2⟩

theorem ceilQ_eval {x : ℚ} {z : ℤ} (h1 : (z : ℚ) - 1 < x) (h2 : x ≤ (z : ℚ)) :
    ⌈x⌉ = z :=
  Int.ceil_eq_iff.mpr ⟨h1, h2⟩

theorem truncQ_eval_nonneg {x : ℚ} {z : ℤ} (h0 : 0 ≤ x) (h1 : (z : ℚ) ≤ x)
    (h2 : x < (z : ℚ) + 1) : truncQ x = z := by
  rw [truncQ, if_pos h0]
  exact floorQ_eval h1 h2

theorem truncQ_eval_neg {x : ℚ} {z : ℤ} (h0 : ¬ 0 ≤ x) (h1 : (z : ℚ) - 1 < x)
    (h2 : x ≤ (z : ℚ)) : truncQ x = z := by
  rw [truncQ, if_neg h0]
  exact ceilQ_eval h1 h2

theorem asI16_eval {x : ℚ} {z : ℤ} (ht : truncQ x = z) (hlo : -32768 ≤ z)
    (hhi : z ≤ 32767) : asI16 x = z := by
  rw [asI16, ht]
  omega

theorem roundAway_eval_nonneg {x : ℚ} {z : ℤ} (h0 : 0 ≤ x) (h1 : (z : ℚ) ≤ x + 1/2)
    (h2 : x + 1/2 < (z : ℚ) + 1) : roundAway x = z := by
  rw [roundAway, if_pos h0]
  exact floorQ_eval h1 h2

theorem roundAway_eval_neg {x : ℚ} {z : ℤ} (h0 : ¬ 0 ≤ x) (h1 : -(z : ℚ) ≤ -x + 1/2)
    (h2 : -x + 1/2 < -(z : ℚ) + 1) : roundAway x = z := by
  have hf : ⌊-x + 1/2⌋ = -z := floorQ_eval (by push_cast; linarith) (by push_cast; linarith)
  rw [roundAway, if_neg h0, hf, neg_neg]

theorem roundAway_nonneg {x : ℚ} (h : 0 ≤ x) : 0 ≤ roundAway x := by
  rw [roundAway, if_pos h]
  exact Int.le_floor.mpr (by push_cast; linarith)

theorem roundAway_mono_of_nonneg {x y : ℚ} (hx : 0 ≤ x) (hxy : x ≤ y) :
    roundAway x ≤ roundAway y := by
  rw [roundAway, roundAway, if_pos hx, if_pos (hx.trans hxy)]
  exact Int.floor_mono (by linarith)

theorem roundAway_natCast (n : ℕ) : roundAway (n : ℚ) = n := by
  apply roundAway_eval_nonneg (by positivity) <;> push_cast <;> linarith

theorem length_filterMap_eq_countP {α β : Type} (f : α → Option β) (l : List α) :
    (l.filterMap f).length = l.countP (fun a => (f a).isSome) := by
  induction l with
  | nil => rfl
  | cons a l ih =>
    cases h : f a <;>
      simp [List.filterMap_cons, h, List.countP_cons, ih]

theorem map_getD_range (l : List ℚ) :
    (List.range l.length).map (fun i => l.getD i 0) = l := by
  induction l with
  | nil => rfl
  | cons a l ih =>
    rw [List.length_cons, List.range_succ_eq_map, List.map_cons, List.map_map]
    have h2 : List.map ((fun i => (a :: l).getD i 0) ∘ Nat.succ) (List.range l.length)
        = List.map (fun i => l.getD i 0) (List.range l.length) :=
      List.map_congr_left fun i _ => by simp [Function.comp, List.getD_cons_succ]
    rw [h2, ih]
    simp

/-- The interpolation in `process` always degenerates: the source position is
an integer, so its fractional part vanishes and the body reduces to the
nearest-neighbor body. -/
theorem process_eq_nearest_aux (buffer : List ℚ) (speed : ℚ) :
    process buffer speed = processNearest buffer speed := by
  unfold process processNearest
  apply List.filterMap_congr
  intro i _
  simp only [truncQ_intCast, Int.floor_intCast, sub_self, sub_zero, one_mul,
    zero_mul, add_zero]
  by_cases h1 : (roundAway ((i : ℚ) * speed)).toNat + 1 < buffer.length
  · rw [if_pos h1, if_pos (by omega)]
  · rw [if_neg h1]

theorem processNearest_length (buffer : List ℚ) (speed : ℚ) (hk : 0 < speed) :
    (processNearest buffer speed).length = outLenSpec buffer speed := by
  unfold processNearest outLenSpec
  rw [length_filterMap_eq_countP]
  apply le_antisymm
  · apply List.countP_mono_left
    intro i _ h
    have h0 : 0 ≤ roundAway ((i : ℚ) * speed) :=
      roundAway_nonneg (mul_nonneg (Nat.cast_nonneg i) hk.le)
    by_cases hc : (roundAway ((i : ℚ) * speed)).toNat < buffer.length
    · rw [decide_eq_true_eq]
      omega
    · rw [if_neg hc] at h
      simp at h
  · apply List.countP_mono_left
    intro i _ h
    have h0 : 0 ≤ roundAway ((i : ℚ) * speed) :=
      roundAway_nonneg (mul_nonneg (Nat.cast_nonneg i) hk.le)
    rw [decide_eq_true_eq] at h
    rw [if_pos (by omega)]
    rfl

theorem process_length_eq (buffer : List ℚ) (speed : ℚ) (hk : 0 < speed) :
    (process buffer speed).length = outLenSpec buffer speed := by
  rw [process_eq_nearest_aux, processNearest_length _ _ hk]

theorem filterMap_eq_map_of_all_some {α β : Type} {l : List α} {f : α → Option β}
    {g : α → β} (h : ∀ a ∈ l, f a = some (g a)) : l.filterMap f = l.map g := by
  induction l with
  | nil => rfl
  | cons a l ih =>
    rw [List.filterMap_cons, h a (by simp), List.map_cons,
      ih fun x hx => h x (by simp [hx])]

/-! ### Claims -/

/-- Claim C4: the spec requires every `speed ≤ 0` to be rejected with an
"invalid speed" report and the working buffer left untouched. The code has
no such check: at `buffer = [1.0]`, `speed = -1.0` the Process branch
computes output length `round(1 / -1) = -1`, which the `as usize` cast
saturates to `0`, and it silently replaces the working buffer with the
empty buffer. -/
theorem process_invalid_speed_no_rejection : process [1] (-1) = [] := by
  have h1 : roundAway ((([1] : List ℚ).length : ℚ) / (-1)) = -1 := by
    apply roundAway_eval_neg <;> norm_num
  unfold process
  rw [h1]
  rfl

/-- Claim C5: resampler identity — for every non-empty buffer,
`process(buffer, 1.0)` returns the buffer itself, element for element. -/
theorem process_speed_one_identity (buffer : List ℚ) (hne : buffer ≠ []) :
    process buffer 1 = buffer := by
  rw [process_eq_nearest_aux]
  unfold processNearest
  rw [div_one, roundAway_natCast, Int.toNat_natCast]
  rw [filterMap_eq_map_of_all_some (g := fun i => buffer.getD i 0) ?_]
  · exact map_getD_range buffer
  · intro i hi
    rw [List.mem_range] at hi
    simp only [mul_one, roundAway_natCast, Int.toNat_natCast]
    exact if_pos hi

theorem process_speed_one_identity_witness : process [(1 : ℚ)] 1 = [1] :=
  process_speed_one_identity [1] (by simp)

/-- Claim C6: resampler length law — for `speed > 0` the output length is
exactly the number of output slots among `round(len / speed)` whose source
position `round(i * speed)` is a valid index (so it equals
`round(len / speed)` except for trailing dropped slots); it never exceeds
`round(len / speed)`; and validity of a source position is downward closed
in the output index, so only a trailing segment is ever dropped. -/
theorem process_length_law (buffer : List ℚ) (speed : ℚ) (hk : 0 < speed) :
    (process buffer speed).length = outLenSpec buffer speed ∧
    (process buffer speed).length ≤
      (roundAway ((buffer.length : ℚ) / speed)).toNat ∧
    ∀ i j : ℕ, i ≤ j → roundAway ((j : ℚ) * speed) < (buffer.length : Int) →
      roundAway ((i : ℚ) * speed) < (buffer.length : Int) := by
  refine ⟨process_length_eq buffer speed hk, ?_, ?_⟩
  · rw [process_length_eq buffer speed hk]
    unfold outLenSpec
    exact (List.countP_le_length _).trans_eq (List.length_range _)
  · intro i j hij hj
    have h1 : roundAway ((i : ℚ) * speed) ≤ roundAway ((j : ℚ) * speed) :=
      roundAway_mono_of_nonneg (mul_nonneg (Nat.cast_nonneg i) hk.le)
        (mul_le_mul_of_nonneg_right (by exact_mod_cast hij) hk.le)
    omega

theorem process_length_law_witness :
    (process ([0, 0, 0] : List ℚ) 2).length = outLenSpec [0, 0, 0] 2 :=
  (process_length_law [0, 0, 0] 2 (by norm_num)).1

/-- Claim C7, counterexample: output length is not strictly decreasing in
the speed factor. For the two-sample buffer `[0, 0]` and speeds
`k1 = 3/2 < k2 = 2` (both `> 1`), both outputs have length 1. -/
theorem process_length_not_strictly_monotone :
    (1 : ℚ) < 3/2 ∧ (3/2 : ℚ) < 2 ∧
    ¬ ((process [0, 0] 2).length < (process [0, 0] (3/2)).length) := by
  refine ⟨by norm_num, by norm_num, ?_⟩
  have e1 : process ([0, 0] : List ℚ) 2 = [0] := by
    have h1 : roundAway ((([0, 0] : List ℚ).length : ℚ) / 2) = 1 := by
      apply roundAway_eval_nonneg <;> norm_num
    have h2 : roundAway (0 : ℚ) = 0 := by
      apply roundAway_eval_nonneg <;> norm_num
    rw [process_eq_nearest_aux]
    unfold processNearest
    rw [h1, show List.range (1 : ℤ).toNat = [0] from rfl]
    simp [List.filterMap_cons, h2]
  have e2 : process ([0, 0] : List ℚ) (3/2) = [0] := by
    have h1 : roundAway ((([0, 0] : List ℚ).length : ℚ) / (3/2)) = 1 := by
      apply roundAway_eval_nonneg <;> norm_num
    have h2 : roundAway (0 : ℚ) = 0 := by
      apply roundAway_eval_nonneg <;> norm_num
    rw [process_eq_nearest_aux]
    unfold processNearest
    rw [h1, show List.range (1 : ℤ).toNat = [0] from rfl]
    simp [List.filterMap_cons, h2]
  rw [e1, e2]
  simp

/-- Claim C7, amended: for a fixed input and speeds `k2 > k1 > 1`, the
output length of `process` is non-increasing in the speed factor (it need
not strictly decrease). -/
theorem process_length_antitone (buffer : List ℚ) (k1 k2 : ℚ)
    (h1 : 1 < k1) (h12 : k1 < k2) :
    (process buffer k2).length ≤ (process buffer k1).length := by
  have hk1 : 0 < k1 := lt_trans one_pos h1
  have hk2 : 0 < k2 := lt_trans hk1 h12
  rw [process_length_eq buffer k1 hk1, process_length_eq buffer k2 hk2]
  unfold outLenSpec
  have hR : (roundAway ((buffer.length : ℚ) / k2)).toNat ≤
      (roundAway ((buffer.length : ℚ) / k1)).toNat := by
    have hd : (buffer.length : ℚ) / k2 ≤ (buffer.length : ℚ) / k1 := by
      gcongr
    have := roundAway_mono_of_nonneg (div_nonneg (Nat.cast_nonneg _) hk2.le) hd
    omega
  refine le_trans (List.countP_mono_left ?_)
    (List.Sublist.countP_le _ (List.range_sublist.mpr hR))
  intro i _ h
  rw [decide_eq_true_eq] at h ⊢
  have hmono : roundAway ((i : ℚ) * k1) ≤ roundAway ((i : ℚ) * k2) :=
    roundAway_mono_of_nonneg (mul_nonneg (Nat.cast_nonneg i) hk1.le)
      (mul_le_mul_of_nonneg_left h12.le (Nat.cast_nonneg i))
  omega

theorem process_length_antitone_witness :
    (process ([(1 : ℚ)] : List ℚ) 3).length ≤ (process [(1 : ℚ)] 2).length :=
  process_length_antitone [1] 2 3 (by norm_num) (by norm_num)

/-- Claim C10: the source position `round(i * speed)` is an integer, so its
fractional part is 0 at every output index, the interpolation formula
always collapses to `input[left]`, and for `speed > 0` the resampler is
extensionally nearest-neighbor resampling with edge clamp. -/
theorem process_is_nearest_neighbor (buffer : List ℚ) (speed : ℚ)
    (hk : 0 < speed) :
    (∀ i : ℕ, ((roundAway ((i : ℚ) * speed) : ℤ) : ℚ) -
        ((truncQ (((roundAway ((i : ℚ) * speed) : ℤ) : ℚ)) : ℤ) : ℚ) = 0) ∧
    process buffer speed = processNearest buffer speed :=
  ⟨fun i => by rw [truncQ_intCast, sub_self],
    process_eq_nearest_aux buffer speed⟩

theorem process_is_nearest_neighbor_witness :
    process ([1, 2] : List ℚ) 2 = processNearest [1, 2] 2 :=
  (process_is_nearest_neighbor [1, 2] 2 (by norm_num)).2

/-- Claim C3: encode emits a 1-byte short unit exactly when the computed
16-bit delta lies in −127..126 inclusive, and a 2-byte long unit exactly
when the delta is −128, +127, or of larger magnitude. -/
theorem encode_short_long_boundary (s last : ℚ) :
    ((encodeUnit (delta s last)).length = 1 ↔
      (-127 ≤ delta s last ∧ delta s last ≤ 126)) ∧
    ((encodeUnit (delta s last)).length = 2 ↔
      (delta s last ≤ -128 ∨ 127 ≤ delta s last)) := by
  unfold encodeUnit
  by_cases hc : delta s last < 127 ∧ -128 < delta s last
  · rw [if_pos hc]
    simp
    omega
  · rw [if_neg hc]
    simp
    omega

/-- Claim C2, counterexample: at sample 0.5 with predictor 0 the scaled
difference is 16383.5; the code truncates it to 16383, while rounding to
the nearest integer — as the claim states — would give 16384. -/
theorem delta_not_rounded_counterexample :
    delta (1/2) 0 ≠ roundAway ((1/2 : ℚ) * 32767 - 0 * 32767) := by
  have h1 : delta (1/2) 0 = 16383 := by
    unfold delta
    apply asI16_eval _ (by norm_num) (by norm_num)
    apply truncQ_eval_nonneg <;> norm_num
  have h2 : roundAway ((1/2 : ℚ) * 32767 - 0 * 32767) = 16384 := by
    apply roundAway_eval_nonneg <;> norm_num
  rw [h1, h2]
  norm_num

/-- Claim C2, amended: with predictor `last` equal to the previous raw
sample (initially 0), the emitted delta is the scaled difference
`s * 32767 − last * 32767` truncated toward zero — floor of a nonnegative
difference, ceiling of a negative one — not rounded to nearest, whenever
the scaled difference lies in the 16-bit signed range. -/
theorem delta_truncates_toward_zero (s last : ℚ)
    (hlo : -32768 ≤ s * 32767 - last * 32767)
    (hhi : s * 32767 - last * 32767 < 32768) :
    (0 ≤ s * 32767 - last * 32767 →
      delta s last = ⌊s * 32767 - last * 32767⌋) ∧
    (s * 32767 - last * 32767 < 0 →
      delta s last = ⌈s * 32767 - last * 32767⌉) := by
  constructor
  · intro h0
    have hfl : (-32768 : ℤ) ≤ ⌊s * 32767 - last * 32767⌋ :=
      Int.le_floor.mpr (by push_cast; linarith)
    have hfu : ⌊s * 32767 - last * 32767⌋ < 32768 :=
      Int.floor_lt.mpr (by push_cast; linarith)
    unfold delta
    apply asI16_eval _ hfl (by omega)
    rw [truncQ, if_pos h0]
  · intro h0
    have hcl : (-32768 : ℤ) ≤ ⌈s * 32767 - last * 32767⌉ := by
      have h := Int.le_ceil (s * 32767 - last * 32767)
      have h2 : ((-32768 : ℤ) : ℚ) ≤ ((⌈s * 32767 - last * 32767⌉ : ℤ) : ℚ) := by
        push_cast
        push_cast at h
        linarith
      exact_mod_cast h2
    have hcu : ⌈s * 32767 - last * 32767⌉ ≤ 0 :=
      Int.ceil_le.mpr (by exact_mod_cast h0.le)
    unfold delta
    apply asI16_eval _ hcl (by omega)
    rw [truncQ, if_neg (not_le.mpr h0)]

theorem delta_truncates_toward_zero_witness :
    (0 ≤ (1/2 : ℚ) * 32767 - 0 * 32767 →
      delta (1/2) 0 = ⌊(1/2 : ℚ) * 32767 - 0 * 32767⌋) ∧
    ((1/2 : ℚ) * 32767 - 0 * 32767 < 0 →
      delta (1/2) 0 = ⌈(1/2 : ℚ) * 32767 - 0 * 32767⌉) :=
  delta_truncates_toward_zero (1/2) 0 (by norm_num) (by norm_num)

theorem decodeAux_append_truncated {stream : List Nat} (h : CompleteUnits stream)
    {b : Nat} (hb : b % 2 = 0) :
    ∀ last : ℚ, decodeAux last (stream ++ [b]) = decodeAux last stream := by
  induction h with
  | nil =>
    intro last
    rw [List.nil_append, decodeAux_single_even last b hb, decodeAux_nil]
  | short c rest hc hrest ih =>
    intro last
    rw [List.cons_append, decodeAux_cons_odd _ _ _ hc, decodeAux_cons_odd _ _ _ hc, ih]
  | long c c2 rest hc hrest ih =>
    intro last
    rw [List.cons_append, List.cons_append, decodeAux_cons_even _ _ _ _ hc,
      decodeAux_cons_even _ _ _ _ hc, ih]

/-- Claim C8: a trailing truncated long unit — a final byte with
least-significant bit 0 and no byte after it — is silently dropped by
decode: no sample is emitted for it, no error is raised, and all complete
units before it decode exactly as they would without it. -/
theorem decode_drops_truncated_long_unit (stream : List Nat)
    (h : CompleteUnits stream) (b : Nat) (hb : b % 2 = 0) :
    decode (stream ++ [b]) = decode stream :=
  decodeAux_append_truncated h hb 0

theorem decode_drops_truncated_long_unit_witness :
    decode ([1] ++ [2]) = decode [1] :=
  decode_drops_truncated_long_unit [1]
    (CompleteUnits.short 1 [] (by norm_num) CompleteUnits.nil) 2 (by norm_num)

/-- Claim C1: the codec round-trip fails because of the tag-bit polarity
mismatch — at the claim's example input `[0.0, 0.1, 0.05, -0.2]` (taken
here as exact rationals; every delta the Rust code computes at this input
is bit-exact), `decode (encode x)` differs from `x` far beyond any rounding
tolerance: the first decoded sample is `-13056/32767 ≈ -0.398` instead
of `0`. -/
theorem decode_encode_roundtrip_fails :
    decode (encode [0, 1/10, 1/20, -(1/5)]) ≠ [0, 1/10, 1/20, -(1/5)] := by
  have d1 : delta 0 0 = 0 := by
    unfold delta
    apply asI16_eval _ (by norm_num) (by norm_num)
    apply truncQ_eval_nonneg <;> norm_num
  have d2 : delta (1/10) 0 = 3276 := by
    unfold delta
    apply asI16_eval _ (by norm_num) (by norm_num)
    apply truncQ_eval_nonneg <;> norm_num
  have d3 : delta (1/20) (1/10) = -1638 := by
    unfold delta
    apply asI16_eval _ (by norm_num) (by norm_num)
    apply truncQ_eval_neg <;> norm_num
  have d4 : delta (-(1/5)) (1/20) = -8191 := by
    unfold delta
    apply asI16_eval _ (by norm_num) (by norm_num)
    apply truncQ_eval_neg <;> norm_num
  have henc : encode [0, 1/10, 1/20, -(1/5)] = [0, 205, 12, 155, 249, 1, 224] := by
    simp only [encode, encodeAux, d1, d2, d3, d4]
    decide
  rw [henc]
  intro hEq
  unfold decode at hEq
  rw [decodeAux_cons_even 0 0 205 [12, 155, 249, 1, 224] (by norm_num)] at hEq
  injection hEq with h1 h2
  rw [show toI16 0 205 = -13056 from by decide] at h1
  norm_num at h1

end CodecMan
